import Mathlib

/-!
Verification development for the nvelox L4 proxy / load balancer.

Shallow embedding of the Go sources:
* `src/lb/lb.go` — round-robin, random and least-connections balancers;
* `src/proxy/proxy_protocol.go` — the PROXY protocol v2 header encoder;
* `src/core/handler.go` — the gnet event handler: listener lookup,
  TCP connection context (async dial with ingress buffering), the
  context-identity guarded cross-task writes, and the UDP session table.

Go `uint64` arithmetic is modelled as `Nat` with explicit `% 2 ^ 64`;
Go maps `map[string]bool` / `map[string]int64` are modelled as total
functions (a missing key reads as the zero value, exactly as in Go);
fallible operations return `Except`/`Option`.
-/

namespace Nvelox

/-! ## Load balancer (src/lb/lb.go) -/

/-- Modulus of Go's `uint64` (the round-robin counter type). -/
def U64 : Nat := 2 ^ 64

/-- `RoundRobin` struct of src/lb/lb.go.  `status` models the Go map
`map[string]bool` as a total function (missing key ↦ `false`);
`current` is the `uint64` counter, kept reduced modulo `2 ^ 64`. -/
structure RoundRobin where
  allServers : List String
  status : String → Bool
  healthy : List String
  current : Nat

/-- `NewRoundRobin`: all servers initially healthy, counter `0`. -/
def NewRoundRobin (servers : List String) : RoundRobin :=
  { allServers := servers
    status := fun s => servers.contains s
    healthy := servers
    current := 0 }

/-- `RoundRobin.Next`: on an empty healthy list fail; otherwise atomically
increment the `uint64` counter (`next := current + 1` with wrap-around) and
return `healthy[(next - 1) % len(healthy)]`, where `next - 1` is `uint64`
subtraction (it wraps when `next = 0`). -/
def RoundRobin.Next (b : RoundRobin) : RoundRobin × Except String String :=
  if b.healthy.length = 0 then
    (b, .error "no healthy backends available")
  else
    let next := (b.current + 1) % U64
    let idx := ((next + (U64 - 1)) % U64) % b.healthy.length
    ({ b with current := next }, .ok (b.healthy.getD idx ""))

/-- `RoundRobin.UpdateStatus`: record the new status and rebuild the healthy
list by filtering the immutable full list in original order. -/
def RoundRobin.UpdateStatus (b : RoundRobin) (server : String) (healthy : Bool) :
    RoundRobin :=
  let status := fun t => if t = server then healthy else b.status t
  { b with status := status, healthy := b.allServers.filter status }

/-- Apply `Next` repeatedly, keeping only the evolving balancer state. -/
def RoundRobin.afterCalls (b : RoundRobin) : Nat → RoundRobin
  | 0 => b
  | k + 1 => (b.afterCalls k).Next.1

/-- Result of the `k`-th call to `Next` (0-indexed) starting from `b`. -/
def RoundRobin.kthCall (b : RoundRobin) (k : Nat) : Except String String :=
  (b.afterCalls k).Next.2

/-- Apply a sequence of `UpdateStatus` calls in order. -/
def RoundRobin.applyUpdates (b : RoundRobin) : List (String × Bool) → RoundRobin
  | [] => b
  | (s, h) :: rest => (b.UpdateStatus s h).applyUpdates rest

/-- `Random` struct of src/lb/lb.go.  The PRNG (`math/rand.Rand`) is not
embedded: `Next` takes the drawn value as an oracle argument `r`, reduced
`mod len(healthy)` exactly as `rand.Intn` guarantees a value in `[0, n)`. -/
structure Random where
  allServers : List String
  status : String → Bool
  healthy : List String

/-- `NewRandom`: all servers initially healthy. -/
def NewRandom (servers : List String) : Random :=
  { allServers := servers
    status := fun s => servers.contains s
    healthy := servers }

/-- `Random.Next`: fail on an empty healthy list; otherwise return the
element at the PRNG-drawn index (`r` is the oracle draw, see `Random`). -/
def Random.Next (b : Random) (r : Nat) : Except String String :=
  if b.healthy.length = 0 then .error "no healthy backends available"
  else .ok (b.healthy.getD (r % b.healthy.length) "")

/-- `Random.UpdateStatus`: identical rebuild of the healthy list. -/
def Random.UpdateStatus (b : Random) (server : String) (healthy : Bool) : Random :=
  let status := fun t => if t = server then healthy else b.status t
  { b with status := status, healthy := b.allServers.filter status }

/-- Apply a sequence of `UpdateStatus` calls in order. -/
def Random.applyUpdates (b : Random) : List (String × Bool) → Random
  | [] => b
  | (s, h) :: rest => (b.UpdateStatus s h).applyUpdates rest

/-- `LeastConn` struct of src/lb/lb.go.  `conns` models the Go map
`map[string]int64` as a total function (missing key ↦ `0`). -/
structure LeastConn where
  allServers : List String
  status : String → Bool
  healthy : List String
  conns : String → Int

/-- `NewLeastConn`: all servers healthy, all in-flight counters `0`. -/
def NewLeastConn (servers : List String) : LeastConn :=
  { allServers := servers
    status := fun s => servers.contains s
    healthy := servers
    conns := fun _ => 0 }

/-- One iteration of the `LeastConn.Next` scan: replace the current best
only on a strictly smaller counter (`if c < min`), so ties keep the
earlier element. -/
def selStep (conns : String → Int) (p : String × Int) (s : String) : String × Int :=
  if conns s < p.2 then (s, conns s) else p

/-- `LeastConn.Next`: fail on an empty healthy list; otherwise start with
`healthy[0]` and scan `healthy[1:]` keeping the server with the strictly
smallest in-flight counter.  `Next` does not mutate the balancer. -/
def LeastConn.Next (b : LeastConn) : Except String String :=
  match b.healthy with
  | [] => .error "no healthy backends available"
  | best :: rest => .ok (rest.foldl (selStep b.conns) (best, b.conns best)).1

/-- `LeastConn.UpdateStatus`: identical rebuild of the healthy list. -/
def LeastConn.UpdateStatus (b : LeastConn) (server : String) (healthy : Bool) :
    LeastConn :=
  let status := fun t => if t = server then healthy else b.status t
  { b with status := status, healthy := b.allServers.filter status }

/-- `LeastConn.OnConnect`: increment the server's in-flight counter. -/
def LeastConn.OnConnect (b : LeastConn) (server : String) : LeastConn :=
  { b with conns := fun t => if t = server then b.conns t + 1 else b.conns t }

/-- `LeastConn.OnDisconnect`: decrement the server's in-flight counter. -/
def LeastConn.OnDisconnect (b : LeastConn) (server : String) : LeastConn :=
  { b with conns := fun t => if t = server then b.conns t - 1 else b.conns t }

/-- Apply a sequence of `UpdateStatus` calls in order. -/
def LeastConn.applyUpdates (b : LeastConn) : List (String × Bool) → LeastConn
  | [] => b
  | (s, h) :: rest => (b.UpdateStatus s h).applyUpdates rest

end Nvelox

namespace Nvelox

/-! ### Basic lemmas about the balancer operations -/

theorem getD_mem_of_lt {l : List String} {n : Nat} (h : n < l.length) (d : String) :
    l.getD n d ∈ l := by
  induction l generalizing n with
  | nil => simp at h
  | cons a t ih =>
    cases n with
    | zero => simp [List.getD]
    | succ m =>
      have hm : m < t.length := by simpa using h
      simpa [List.getD] using Or.inr (ih hm)

theorem filter_contains_self (ss : List String) :
    ss.filter (fun s => ss.contains s) = ss := by
  rw [List.filter_eq_self]
  intro a ha
  simpa using ha

theorem RoundRobin.Next_fst_healthy (b : RoundRobin) : b.Next.1.healthy = b.healthy := by
  unfold RoundRobin.Next
  split <;> rfl

theorem RoundRobin.Next_fst_status (b : RoundRobin) : b.Next.1.status = b.status := by
  unfold RoundRobin.Next
  split <;> rfl

theorem RoundRobin.Next_fst_allServers (b : RoundRobin) :
    b.Next.1.allServers = b.allServers := by
  unfold RoundRobin.Next
  split <;> rfl

theorem RoundRobin.afterCalls_healthy (b : RoundRobin) (k : Nat) :
    (b.afterCalls k).healthy = b.healthy := by
  induction k with
  | zero => rfl
  | succ n ih => rw [RoundRobin.afterCalls, RoundRobin.Next_fst_healthy, ih]

theorem RoundRobin.afterCalls_current (b : RoundRobin) (hne : b.healthy ≠ [])
    (hc : b.current < U64) (k : Nat) :
    (b.afterCalls k).current = (b.current + k) % U64 := by
  induction k with
  | zero =>
    simpa [RoundRobin.afterCalls] using (Nat.mod_eq_of_lt hc).symm
  | succ n ih =>
    rw [RoundRobin.afterCalls]
    have hh : (b.afterCalls n).healthy = b.healthy := b.afterCalls_healthy n
    have hlen : (b.afterCalls n).healthy.length ≠ 0 := by
      rw [hh]
      simpa using hne
    unfold RoundRobin.Next
    rw [if_neg hlen]
    simp only [ih]
    rw [Nat.mod_add_mod, ← Nat.add_assoc]

theorem idx64_eq (k : Nat) (hk : k < U64) :
    ((k + 1) % U64 + (U64 - 1)) % U64 = k := by
  have hU : 0 < U64 := by decide
  rcases Nat.lt_or_ge (k + 1) U64 with h | h
  · rw [Nat.mod_eq_of_lt h]
    have : k + 1 + (U64 - 1) = k + U64 := by omega
    rw [this, Nat.add_mod_right, Nat.mod_eq_of_lt hk]
  · have hk1 : k + 1 = U64 := by omega
    rw [hk1, Nat.mod_self, Nat.zero_add,
      Nat.mod_eq_of_lt (by omega : U64 - 1 < U64)]
    omega

/-- Claim C5: for a round-robin balancer over servers `[s1, …, sN]` with all
servers healthy and no intervening update-status calls, the `k`-th call to
`Next` (`k` starting at 0) returns `s_{(k mod N)+1}` — that is, the element
at 0-based index `k % N`; the chosen index is `(n − 1) mod len(healthy)`
where `n` is the counter value after its increment.  (`k` is bounded by the
`uint64` counter width.) -/
theorem C5_roundrobin_kth_call (ss : List String) (k : Nat)
    (hne : ss ≠ []) (hk : k < U64) :
    (NewRoundRobin ss).kthCall k = .ok (ss.getD (k % ss.length) "") := by
  unfold RoundRobin.kthCall
  have hh : ((NewRoundRobin ss).afterCalls k).healthy = ss :=
    RoundRobin.afterCalls_healthy (NewRoundRobin ss) k
  have hc : ((NewRoundRobin ss).afterCalls k).current = k % U64 := by
    have := RoundRobin.afterCalls_current (NewRoundRobin ss)
      (by simpa [NewRoundRobin] using hne) (by decide : (0 : Nat) < U64) k
    simpa [NewRoundRobin] using this
  have hck : ((NewRoundRobin ss).afterCalls k).current = k := by
    rw [hc, Nat.mod_eq_of_lt hk]
  have hlen : ((NewRoundRobin ss).afterCalls k).healthy.length ≠ 0 := by
    rw [hh]
    simpa using hne
  unfold RoundRobin.Next
  rw [if_neg hlen]
  simp only [hck, hh, idx64_eq k hk]

/-- Witness for C5 at a concrete input: the 4th call (0-indexed) on a fresh
three-server round-robin returns the second server. -/
theorem C5_roundrobin_kth_call_witness :
    (NewRoundRobin ["s1", "s2", "s3"]).kthCall 4 = .ok "s2" :=
  C5_roundrobin_kth_call ["s1", "s2", "s3"] 4 (by decide) (by decide)

end Nvelox

namespace Nvelox

/-! ### Invariants maintained by the status updates (all three strategies) -/

theorem RoundRobin.applyUpdates_allServers_rr (b : RoundRobin)
    (us : List (String × Bool)) : (b.applyUpdates us).allServers = b.allServers := by
  induction us generalizing b with
  | nil => rfl
  | cons u rest ih =>
    cases u with
    | mk s h => rw [RoundRobin.applyUpdates, ih]; rfl

theorem RoundRobin.applyUpdates_healthyInv_rr (b : RoundRobin)
    (hb : b.healthy = b.allServers.filter b.status) (us : List (String × Bool)) :
    (b.applyUpdates us).healthy =
      (b.applyUpdates us).allServers.filter (b.applyUpdates us).status := by
  induction us generalizing b with
  | nil => exact hb
  | cons u rest ih =>
    cases u with
    | mk s h => exact ih _ rfl

theorem RoundRobin.applyUpdates_append_rr (b : RoundRobin)
    (us1 us2 : List (String × Bool)) :
    b.applyUpdates (us1 ++ us2) = (b.applyUpdates us1).applyUpdates us2 := by
  induction us1 generalizing b with
  | nil => rfl
  | cons u rest ih =>
    cases u with
    | mk s h => rw [List.cons_append, RoundRobin.applyUpdates, ih]; rfl

theorem RoundRobin.applyUpdates_status_false_rr (b : RoundRobin) (si : String)
    (hb : b.status si = false) (us : List (String × Bool))
    (hus : ∀ p ∈ us, p.1 = si → p.2 = false) :
    (b.applyUpdates us).status si = false := by
  induction us generalizing b with
  | nil => exact hb
  | cons u rest ih =>
    cases u with
    | mk s h =>
      refine ih _ ?_ (fun p hp hp1 => hus p (List.mem_cons_of_mem _ hp) hp1)
      by_cases hsi : si = s
      · subst hsi
        have := hus (si, h) (List.mem_cons_self _ _) rfl
        simpa [RoundRobin.UpdateStatus] using this
      · simpa [RoundRobin.UpdateStatus, hsi] using hb

theorem RoundRobin.Next_snd_err (b : RoundRobin) (he : b.healthy = []) :
    b.Next.2 = .error "no healthy backends available" := by
  unfold RoundRobin.Next
  rw [if_pos (by simp [he])]

theorem RoundRobin.Next_snd_ok (b : RoundRobin) (hne : b.healthy ≠ []) :
    ∃ s, b.Next.2 = .ok s ∧ s ∈ b.healthy := by
  have hlen : b.healthy.length ≠ 0 := by simpa using hne
  have hpos : 0 < b.healthy.length := Nat.pos_of_ne_zero hlen
  have heq : b.Next.2 = .ok (b.healthy.getD
      ((((b.current + 1) % U64) + (U64 - 1)) % U64 % b.healthy.length) "") := by
    unfold RoundRobin.Next
    rw [if_neg hlen]
  exact ⟨_, heq, getD_mem_of_lt (Nat.mod_lt _ hpos) ""⟩

theorem RoundRobin.kthCall_not_ok (b : RoundRobin) (si : String)
    (hsi : si ∉ b.healthy) (k : Nat) : b.kthCall k ≠ .ok si := by
  unfold RoundRobin.kthCall
  have hh := b.afterCalls_healthy k
  by_cases he : (b.afterCalls k).healthy = []
  · rw [RoundRobin.Next_snd_err _ he]
    simp
  · obtain ⟨s, hs, hmem⟩ := RoundRobin.Next_snd_ok _ he
    rw [hs]
    intro hcon
    cases hcon
    exact hsi (hh ▸ hmem)

theorem Random.applyUpdates_allServers_rnd (b : Random)
    (us : List (String × Bool)) : (b.applyUpdates us).allServers = b.allServers := by
  induction us generalizing b with
  | nil => rfl
  | cons u rest ih =>
    cases u with
    | mk s h => rw [Random.applyUpdates, ih]; rfl

theorem Random.applyUpdates_healthyInv_rnd (b : Random)
    (hb : b.healthy = b.allServers.filter b.status) (us : List (String × Bool)) :
    (b.applyUpdates us).healthy =
      (b.applyUpdates us).allServers.filter (b.applyUpdates us).status := by
  induction us generalizing b with
  | nil => exact hb
  | cons u rest ih =>
    cases u with
    | mk s h => exact ih _ rfl

theorem Random.applyUpdates_status_false_rnd (b : Random) (si : String)
    (hb : b.status si = false) (us : List (String × Bool))
    (hus : ∀ p ∈ us, p.1 = si → p.2 = false) :
    (b.applyUpdates us).status si = false := by
  induction us generalizing b with
  | nil => exact hb
  | cons u rest ih =>
    cases u with
    | mk s h =>
      refine ih _ ?_ (fun p hp hp1 => hus p (List.mem_cons_of_mem _ hp) hp1)
      by_cases hsi : si = s
      · subst hsi
        have := hus (si, h) (List.mem_cons_self _ _) rfl
        simpa [Random.UpdateStatus] using this
      · simpa [Random.UpdateStatus, hsi] using hb

theorem Random.applyUpdates_append_rnd (b : Random)
    (us1 us2 : List (String × Bool)) :
    b.applyUpdates (us1 ++ us2) = (b.applyUpdates us1).applyUpdates us2 := by
  induction us1 generalizing b with
  | nil => rfl
  | cons u rest ih =>
    cases u with
    | mk s h => rw [List.cons_append, Random.applyUpdates, ih]; rfl

theorem Random.Next_err_rnd (b : Random) (r : Nat) (he : b.healthy = []) :
    b.Next r = .error "no healthy backends available" := by
  unfold Random.Next
  rw [if_pos (by simp [he])]

theorem Random.Next_ok_rnd (b : Random) (r : Nat) (hne : b.healthy ≠ []) :
    ∃ s, b.Next r = .ok s ∧ s ∈ b.healthy := by
  have hlen : b.healthy.length ≠ 0 := by simpa using hne
  have hpos : 0 < b.healthy.length := Nat.pos_of_ne_zero hlen
  have heq : b.Next r = .ok (b.healthy.getD (r % b.healthy.length) "") := by
    unfold Random.Next
    rw [if_neg hlen]
  exact ⟨_, heq, getD_mem_of_lt (Nat.mod_lt _ hpos) ""⟩

theorem LeastConn.applyUpdates_allServers_lc (b : LeastConn)
    (us : List (String × Bool)) : (b.applyUpdates us).allServers = b.allServers := by
  induction us generalizing b with
  | nil => rfl
  | cons u rest ih =>
    cases u with
    | mk s h => rw [LeastConn.applyUpdates, ih]; rfl

theorem LeastConn.applyUpdates_healthyInv_lc (b : LeastConn)
    (hb : b.healthy = b.allServers.filter b.status) (us : List (String × Bool)) :
    (b.applyUpdates us).healthy =
      (b.applyUpdates us).allServers.filter (b.applyUpdates us).status := by
  induction us generalizing b with
  | nil => exact hb
  | cons u rest ih =>
    cases u with
    | mk s h => exact ih _ rfl

theorem LeastConn.applyUpdates_status_false_lc (b : LeastConn) (si : String)
    (hb : b.status si = false) (us : List (String × Bool))
    (hus : ∀ p ∈ us, p.1 = si → p.2 = false) :
    (b.applyUpdates us).status si = false := by
  induction us generalizing b with
  | nil => exact hb
  | cons u rest ih =>
    cases u with
    | mk s h =>
      refine ih _ ?_ (fun p hp hp1 => hus p (List.mem_cons_of_mem _ hp) hp1)
      by_cases hsi : si = s
      · subst hsi
        have := hus (si, h) (List.mem_cons_self _ _) rfl
        simpa [LeastConn.UpdateStatus] using this
      · simpa [LeastConn.UpdateStatus, hsi] using hb

theorem LeastConn.applyUpdates_append_lc (b : LeastConn)
    (us1 us2 : List (String × Bool)) :
    b.applyUpdates (us1 ++ us2) = (b.applyUpdates us1).applyUpdates us2 := by
  induction us1 generalizing b with
  | nil => rfl
  | cons u rest ih =>
    cases u with
    | mk s h => rw [List.cons_append, LeastConn.applyUpdates, ih]; rfl

theorem LeastConn.Next_err_lc (b : LeastConn) (he : b.healthy = []) :
    b.Next = .error "no healthy backends available" := by
  unfold LeastConn.Next
  rw [he]

theorem LeastConn.Next_eq_foldl (b : LeastConn) (best : String) (rest : List String)
    (hh : b.healthy = best :: rest) :
    b.Next = .ok (rest.foldl (selStep b.conns) (best, b.conns best)).1 := by
  unfold LeastConn.Next
  rw [hh]

end Nvelox

namespace Nvelox

/-- Specification of the `LeastConn.Next` scan: the fold over the tail
returns a member of the list that attains the minimal counter value, and it
is exactly the first element of the list attaining that value (ties keep
the earliest position, because the scan replaces only on a strict `<`). -/
theorem selStep_foldl_spec (f : String → Int) (l : List String) (b0 : String) :
    (l.foldl (selStep f) (b0, f b0)).1 ∈ b0 :: l
    ∧ (∀ s ∈ b0 :: l, f (l.foldl (selStep f) (b0, f b0)).1 ≤ f s)
    ∧ (b0 :: l).find? (fun s => decide (f s ≤ f (l.foldl (selStep f) (b0, f b0)).1))
        = some (l.foldl (selStep f) (b0, f b0)).1 := by
  induction l generalizing b0 with
  | nil =>
    refine ⟨List.mem_cons_self _ _, ?_, ?_⟩
    · intro s hs
      have : s = b0 := by simpa using hs
      simp [this]
    · simp [List.find?]
  | cons s l ih =>
    by_cases hlt : f s < f b0
    · have hsel : selStep f (b0, f b0) s = (s, f s) := by simp [selStep, hlt]
      rw [List.foldl_cons, hsel]
      obtain ⟨hmem, hmin, hfind⟩ := ih s
      refine ⟨List.mem_cons_of_mem _ hmem, ?_, ?_⟩
      · intro t ht
        rcases List.mem_cons.mp ht with h0 | h1
        · subst h0
          exact le_of_lt (lt_of_le_of_lt (hmin s (List.mem_cons_self _ _)) hlt)
        · exact hmin t h1
      · have hr : f (l.foldl (selStep f) (s, f s)).1 ≤ f s :=
          hmin s (List.mem_cons_self _ _)
        have hb : ¬ (f b0 ≤ f (l.foldl (selStep f) (s, f s)).1) :=
          not_le_of_lt (lt_of_le_of_lt hr hlt)
        rw [List.find?_cons_of_neg _ (by simpa using hb)]
        exact hfind
    · have hsel : selStep f (b0, f b0) s = (b0, f b0) := by simp [selStep, hlt]
      rw [List.foldl_cons, hsel]
      obtain ⟨hmem, hmin, hfind⟩ := ih b0
      have hb0s : f b0 ≤ f s := le_of_not_lt hlt
      refine ⟨?_, ?_, ?_⟩
      · rcases List.mem_cons.mp hmem with h0 | h1
        · rw [h0]; exact List.mem_cons_self _ _
        · exact List.mem_cons_of_mem _ (List.mem_cons_of_mem _ h1)
      · intro t ht
        rcases List.mem_cons.mp ht with h0 | h1
        · subst h0
          exact hmin t (List.mem_cons_self _ _)
        · rcases List.mem_cons.mp h1 with h2 | h3
          · subst h2
            exact le_trans (hmin b0 (List.mem_cons_self _ _)) hb0s
          · exact hmin t (List.mem_cons_of_mem _ h3)
      · by_cases hb : f b0 ≤ f (l.foldl (selStep f) (b0, f b0)).1
        · rw [List.find?_cons_of_pos _ (by simpa using hb)] at hfind ⊢
          exact hfind
        · have hlt2 : f (l.foldl (selStep f) (b0, f b0)).1 < f b0 :=
            lt_of_not_le (fun hcon => hb (le_trans hcon (le_refl _)))
          have hs2 : ¬ (f s ≤ f (l.foldl (selStep f) (b0, f b0)).1) :=
            not_le_of_lt (lt_of_lt_of_le hlt2 hb0s)
          rw [List.find?_cons_of_neg _ (by simpa using hb)] at hfind
          rw [List.find?_cons_of_neg _ (by simpa using hb),
            List.find?_cons_of_neg _ (by simpa using hs2)]
          exact hfind

end Nvelox

namespace Nvelox

/-- Round-robin balancer after a sequence of `UpdateStatus` calls on a
freshly constructed instance. -/
def rrAfter (ss : List String) (us : List (String × Bool)) : RoundRobin :=
  (NewRoundRobin ss).applyUpdates us

/-- Random balancer after a sequence of `UpdateStatus` calls. -/
def rndAfter (ss : List String) (us : List (String × Bool)) : Random :=
  (NewRandom ss).applyUpdates us

/-- Least-connections balancer after a sequence of `UpdateStatus` calls. -/
def lcAfter (ss : List String) (us : List (String × Bool)) : LeastConn :=
  (NewLeastConn ss).applyUpdates us

theorem rrAfter_inv (ss : List String) (us : List (String × Bool)) :
    (rrAfter ss us).allServers = ss
    ∧ (rrAfter ss us).healthy = ss.filter (rrAfter ss us).status := by
  have hall := RoundRobin.applyUpdates_allServers_rr (NewRoundRobin ss) us
  have hinv := RoundRobin.applyUpdates_healthyInv_rr (NewRoundRobin ss)
    ((filter_contains_self ss).symm) us
  refine ⟨by simpa [rrAfter, NewRoundRobin] using hall, ?_⟩
  rw [rrAfter, hinv, hall]
  rfl

theorem rndAfter_inv (ss : List String) (us : List (String × Bool)) :
    (rndAfter ss us).allServers = ss
    ∧ (rndAfter ss us).healthy = ss.filter (rndAfter ss us).status := by
  have hall := Random.applyUpdates_allServers_rnd (NewRandom ss) us
  have hinv := Random.applyUpdates_healthyInv_rnd (NewRandom ss)
    ((filter_contains_self ss).symm) us
  refine ⟨by simpa [rndAfter, NewRandom] using hall, ?_⟩
  rw [rndAfter, hinv, hall]
  rfl

theorem lcAfter_inv (ss : List String) (us : List (String × Bool)) :
    (lcAfter ss us).allServers = ss
    ∧ (lcAfter ss us).healthy = ss.filter (lcAfter ss us).status := by
  have hall := LeastConn.applyUpdates_allServers_lc (NewLeastConn ss) us
  have hinv := LeastConn.applyUpdates_healthyInv_lc (NewLeastConn ss)
    ((filter_contains_self ss).symm) us
  refine ⟨by simpa [lcAfter, NewLeastConn] using hall, ?_⟩
  rw [lcAfter, hinv, hall]
  rfl

theorem rrAfter_not_mem (ss : List String) (si : String)
    (us1 us2 : List (String × Bool))
    (hno : ∀ p ∈ us2, p.1 = si → p.2 = false) :
    si ∉ (rrAfter ss (us1 ++ (si, false) :: us2)).healthy := by
  have hstat : (rrAfter ss (us1 ++ (si, false) :: us2)).status si = false := by
    rw [rrAfter, RoundRobin.applyUpdates_append_rr, RoundRobin.applyUpdates]
    exact RoundRobin.applyUpdates_status_false_rr _ si
      (by simp [RoundRobin.UpdateStatus]) us2 hno
  intro hmem
  rw [(rrAfter_inv ss (us1 ++ (si, false) :: us2)).2] at hmem
  have := (List.mem_filter.mp hmem).2
  rw [hstat] at this
  cases this

theorem rndAfter_not_mem (ss : List String) (si : String)
    (us1 us2 : List (String × Bool))
    (hno : ∀ p ∈ us2, p.1 = si → p.2 = false) :
    si ∉ (rndAfter ss (us1 ++ (si, false) :: us2)).healthy := by
  have hstat : (rndAfter ss (us1 ++ (si, false) :: us2)).status si = false := by
    rw [rndAfter, Random.applyUpdates_append_rnd, Random.applyUpdates]
    exact Random.applyUpdates_status_false_rnd _ si
      (by simp [Random.UpdateStatus]) us2 hno
  intro hmem
  rw [(rndAfter_inv ss (us1 ++ (si, false) :: us2)).2] at hmem
  have := (List.mem_filter.mp hmem).2
  rw [hstat] at this
  cases this

theorem lcAfter_not_mem (ss : List String) (si : String)
    (us1 us2 : List (String × Bool))
    (hno : ∀ p ∈ us2, p.1 = si → p.2 = false) :
    si ∉ (lcAfter ss (us1 ++ (si, false) :: us2)).healthy := by
  have hstat : (lcAfter ss (us1 ++ (si, false) :: us2)).status si = false := by
    rw [lcAfter, LeastConn.applyUpdates_append_lc, LeastConn.applyUpdates]
    exact LeastConn.applyUpdates_status_false_lc _ si
      (by simp [LeastConn.UpdateStatus]) us2 hno
  intro hmem
  rw [(lcAfter_inv ss (us1 ++ (si, false) :: us2)).2] at hmem
  have := (List.mem_filter.mp hmem).2
  rw [hstat] at this
  cases this

theorem LeastConn.Next_ok_lc (b : LeastConn) (hne : b.healthy ≠ []) :
    ∃ s, b.Next = .ok s ∧ s ∈ b.healthy := by
  cases hh : b.healthy with
  | nil => exact absurd hh hne
  | cons best rest =>
    obtain ⟨hmem, -, -⟩ := selStep_foldl_spec b.conns rest best
    exact ⟨_, LeastConn.Next_eq_foldl b best rest hh, by exact hmem⟩

end Nvelox

namespace Nvelox

/-- Claim C6: for every strategy (round-robin, random, least-connections),
after any sequence of `UpdateStatus` calls the derived healthy list equals
the immutable full server list filtered in original order by the current
health map (hence it is an order-preserving subsequence of the full list);
`Next` fails with the no-healthy-servers error exactly when this list is
empty and otherwise returns an element of it; consequently after
`UpdateStatus (si, false)` (with no later re-enable of `si`) no subsequent
`Next` call returns `si`. -/
theorem C6_healthy_list_invariant (ss : List String) (us : List (String × Bool)) :
    ((rrAfter ss us).healthy = ss.filter (rrAfter ss us).status
      ∧ (rrAfter ss us).healthy.Sublist ss
      ∧ ((rrAfter ss us).healthy = [] →
          (rrAfter ss us).Next.2 = .error "no healthy backends available")
      ∧ ((rrAfter ss us).healthy ≠ [] →
          ∃ s, (rrAfter ss us).Next.2 = .ok s ∧ s ∈ (rrAfter ss us).healthy)
      ∧ ∀ us1 si us2, us = us1 ++ (si, false) :: us2 →
          (∀ p ∈ us2, p.1 = si → p.2 = false) →
          ∀ k, (rrAfter ss us).kthCall k ≠ .ok si)
    ∧ ((rndAfter ss us).healthy = ss.filter (rndAfter ss us).status
      ∧ (rndAfter ss us).healthy.Sublist ss
      ∧ ((rndAfter ss us).healthy = [] →
          ∀ r, (rndAfter ss us).Next r = .error "no healthy backends available")
      ∧ ((rndAfter ss us).healthy ≠ [] →
          ∀ r, ∃ s, (rndAfter ss us).Next r = .ok s ∧ s ∈ (rndAfter ss us).healthy)
      ∧ ∀ us1 si us2, us = us1 ++ (si, false) :: us2 →
          (∀ p ∈ us2, p.1 = si → p.2 = false) →
          ∀ r, (rndAfter ss us).Next r ≠ .ok si)
    ∧ ((lcAfter ss us).healthy = ss.filter (lcAfter ss us).status
      ∧ (lcAfter ss us).healthy.Sublist ss
      ∧ ((lcAfter ss us).healthy = [] →
          (lcAfter ss us).Next = .error "no healthy backends available")
      ∧ ((lcAfter ss us).healthy ≠ [] →
          ∃ s, (lcAfter ss us).Next = .ok s ∧ s ∈ (lcAfter ss us).healthy)
      ∧ ∀ us1 si us2, us = us1 ++ (si, false) :: us2 →
          (∀ p ∈ us2, p.1 = si → p.2 = false) →
          (lcAfter ss us).Next ≠ .ok si) := by
  refine ⟨⟨(rrAfter_inv ss us).2, ?_, ?_, ?_, ?_⟩,
    ⟨(rndAfter_inv ss us).2, ?_, ?_, ?_, ?_⟩,
    ⟨(lcAfter_inv ss us).2, ?_, ?_, ?_, ?_⟩⟩
  · rw [(rrAfter_inv ss us).2]
    exact List.filter_sublist ss
  · exact fun he => RoundRobin.Next_snd_err _ he
  · exact fun hne => RoundRobin.Next_snd_ok _ hne
  · intro us1 si us2 hus hno k
    subst hus
    exact RoundRobin.kthCall_not_ok _ si (rrAfter_not_mem ss si us1 us2 hno) k
  · rw [(rndAfter_inv ss us).2]
    exact List.filter_sublist ss
  · exact fun he r => Random.Next_err_rnd _ r he
  · exact fun hne r => Random.Next_ok_rnd _ r hne
  · intro us1 si us2 hus hno r
    subst hus
    by_cases he : (rndAfter ss (us1 ++ (si, false) :: us2)).healthy = []
    · rw [Random.Next_err_rnd _ r he]
      simp
    · obtain ⟨s, hs, hmem⟩ := Random.Next_ok_rnd _ r he
      rw [hs]
      intro hcon
      cases hcon
      exact rndAfter_not_mem ss si us1 us2 hno hmem
  · rw [(lcAfter_inv ss us).2]
    exact List.filter_sublist ss
  · exact fun he => LeastConn.Next_err_lc _ he
  · exact fun hne => LeastConn.Next_ok_lc _ hne
  · intro us1 si us2 hus hno
    subst hus
    by_cases he : (lcAfter ss (us1 ++ (si, false) :: us2)).healthy = []
    · rw [LeastConn.Next_err_lc _ he]
      simp
    · obtain ⟨s, hs, hmem⟩ := LeastConn.Next_ok_lc _ he
      rw [hs]
      intro hcon
      cases hcon
      exact lcAfter_not_mem ss si us1 us2 hno hmem

/-- Witness for C6 at a concrete input: after marking `s2` unhealthy in a
three-server pool, the next round-robin call does not return `s2`. -/
theorem C6_healthy_list_invariant_witness :
    (rrAfter ["s1", "s2", "s3"] [("s2", false)]).kthCall 0 ≠ .ok "s2" :=
  (C6_healthy_list_invariant ["s1", "s2", "s3"] [("s2", false)]).1.2.2.2.2
    [] "s2" [] rfl (by simp) 0

/-- Claim C7: for a least-connections balancer with a non-empty healthy
list, `Next` succeeds and returns a healthy server whose in-flight counter
(incremented by `OnConnect`, decremented by `OnDisconnect`) is minimal over
the healthy list, and it is exactly the earliest element of the healthy
list attaining the minimum (the `find?` conjunct). -/
theorem C7_leastconn_minimum (b : LeastConn) (hne : b.healthy ≠ []) :
    (∃ r, b.Next = .ok r)
    ∧ ∀ res, b.Next = .ok res →
        res ∈ b.healthy
        ∧ (∀ s ∈ b.healthy, b.conns res ≤ b.conns s)
        ∧ b.healthy.find? (fun s => decide (b.conns s ≤ b.conns res)) = some res := by
  cases hh : b.healthy with
  | nil => exact absurd hh hne
  | cons best rest =>
    have heq := LeastConn.Next_eq_foldl b best rest hh
    refine ⟨⟨_, heq⟩, ?_⟩
    intro res hres
    rw [heq] at hres
    injection hres with h1
    subst h1
    obtain ⟨hmem, hmin, hfind⟩ := selStep_foldl_spec b.conns rest best
    exact ⟨hmem, hmin, hfind⟩

/-- Witness for C7 at a concrete input: with counters `a ↦ 1, b ↦ 0, c ↦ 0`
the scan returns `b`, the earliest healthy server with the minimal count. -/
theorem C7_leastconn_minimum_witness :
    "b" ∈ ((NewLeastConn ["a", "b", "c"]).OnConnect "a").healthy
    ∧ (∀ s ∈ ((NewLeastConn ["a", "b", "c"]).OnConnect "a").healthy,
        ((NewLeastConn ["a", "b", "c"]).OnConnect "a").conns "b"
          ≤ ((NewLeastConn ["a", "b", "c"]).OnConnect "a").conns s)
    ∧ ((NewLeastConn ["a", "b", "c"]).OnConnect "a").healthy.find?
        (fun s => decide (((NewLeastConn ["a", "b", "c"]).OnConnect "a").conns s
          ≤ ((NewLeastConn ["a", "b", "c"]).OnConnect "a").conns "b")) = some "b" :=
  (C7_leastconn_minimum ((NewLeastConn ["a", "b", "c"]).OnConnect "a")
    (by decide)).2 "b" rfl

end Nvelox

namespace Nvelox

/-! ## PROXY protocol v2 encoder (src/proxy/proxy_protocol.go)

An IP address (`net.IP`) is a byte slice, modelled as `List Nat`; `ipTo4`
and `ipTo16` model `net.IP.To4` / `net.IP.To16` from the Go standard
library (an IPv4 address is a 4-byte slice; a 16-byte slice with ten zero
bytes followed by `0xff 0xff` is an IPv4-mapped IPv6 address and converts
to its 4-byte form; `To4` is `nil` otherwise). -/

/-- 12-byte PROXY v2 signature (`sigV2`). -/
def sigV2 : List Nat :=
  [0x0D, 0x0A, 0x0D, 0x0A, 0x00, 0x0D, 0x0A, 0x51, 0x55, 0x49, 0x54, 0x0A]

/-- The 12-byte lead of an IPv4-mapped IPv6 address (`::ffff:0:0/96`). -/
def v4in6Head : List Nat := [0, 0, 0, 0, 0, 0, 0, 0, 0, 0, 0xff, 0xff]

/-- True iff every byte is zero (Go's `isZeros`). -/
def isZeros (l : List Nat) : Bool := l.all (fun b => b = 0)

/-- Model of `net.IP.To4`. -/
def ipTo4 (ip : List Nat) : Option (List Nat) :=
  if ip.length = 4 then some ip
  else if ip.length = 16 ∧ isZeros (ip.take 10) = true
      ∧ ip.getD 10 0 = 0xff ∧ ip.getD 11 0 = 0xff then
    some (ip.drop 12)
  else none

/-- Model of `net.IP.To16` (`nil` is modelled as `none`; appending `nil`
appends nothing, hence the `getD [] ` at the use site). -/
def ipTo16 (ip : List Nat) : Option (List Nat) :=
  if ip.length = 4 then some (v4in6Head ++ ip)
  else if ip.length = 16 then some ip
  else none

/-- Big-endian encoding of a port: `uint16(p)` truncates to 16 bits, then
`binary.BigEndian.PutUint16` writes high byte first. -/
def be16 (n : Nat) : List Nat := [n % 65536 / 256, n % 256]

/-- A `net.Addr` value as the encoder sees it: the type switch in
`WriteProxyHeaderV2` accepts `*net.TCPAddr` and `*net.UDPAddr` (carrying an
IP and a port) and rejects anything else (`other`). -/
inductive GoAddr where
  | tcp (ip : List Nat) (port : Nat)
  | udp (ip : List Nat) (port : Nat)
  | other
deriving DecidableEq

/-- IP and port extraction (the two type-switch blocks). -/
def GoAddr.ipPort : GoAddr → Option (List Nat × Nat)
  | .tcp ip p => some (ip, p)
  | .udp ip p => some (ip, p)
  | .other => none

/-- The protocol byte is chosen by re-testing whether `src` is a
`*net.TCPAddr` (in both family branches the code tests only `src`). -/
def GoAddr.isTCP : GoAddr → Bool
  | .tcp _ _ => true
  | _ => false

/-- `WriteProxyHeaderV2` of src/proxy/proxy_protocol.go, returning the
byte sequence written to the writer.  The 16-byte prefix consists of the
signature, `header[12] = (2<<4)|1 = 0x21`, `header[13] = family|protocol`
(`0x10 + p` and `0x20 + p` equal the Go bitwise-or since the bits are
disjoint), and `header[14..15]` the big-endian address-block length. -/
def WriteProxyHeaderV2 (src dst : GoAddr) : Except String (List Nat) :=
  match src.ipPort with
  | none => .error "unsupported address type"
  | some (srcIP, srcPort) =>
    match dst.ipPort with
    | none => .error "unsupported address type"
    | some (dstIP, dstPort) =>
      let protoByte : Nat := if src.isTCP then 1 else 2
      match ipTo4 srcIP, ipTo4 dstIP with
      | some s4, some d4 =>
        .ok (sigV2 ++ [0x21, 0x10 + protoByte, 0, 12]
          ++ s4 ++ d4 ++ be16 srcPort ++ be16 dstPort)
      | none, none =>
        .ok (sigV2 ++ [0x21, 0x20 + protoByte, 0, 36]
          ++ (ipTo16 srcIP).getD [] ++ (ipTo16 dstIP).getD []
          ++ be16 srcPort ++ be16 dstPort)
      | some _, none => .error "IP family mismatch or unsupported"
      | none, some _ => .error "IP family mismatch or unsupported"

end Nvelox

namespace Nvelox

theorem ipTo4_of_len4 (ip : List Nat) (h : ip.length = 4) : ipTo4 ip = some ip := by
  rw [ipTo4, if_pos h]

theorem ipTo16_of_len16 (ip : List Nat) (h : ip.length = 16) : ipTo16 ip = some ip := by
  rw [ipTo16, if_neg (by omega), if_pos h]

theorem ipTo4_v4in6 (d4 : List Nat) (h : d4.length = 4) :
    ipTo4 (v4in6Head ++ d4) = some d4 := by
  rw [ipTo4, if_neg (by simp [v4in6Head, h]), if_pos]
  · simp [v4in6Head]
  · refine ⟨by simp [v4in6Head, h], ?_, ?_, ?_⟩ <;> simp [v4in6Head, isZeros]

/-- Claim C8: the PROXY-v2 encoder is a pure function of `(src, dst)`.  For
two IPv4 TCP addresses the output is exactly the 12-byte signature,
`0x21`, family/protocol byte `0x10 ||| 0x01 = 0x11`, big-endian block
length `12`, then src-ip, dst-ip, src-port and dst-port (28 bytes total);
for two (non-v4-mapped) IPv6 TCP addresses it is the same layout with
family byte `0x20 ||| 0x01 = 0x21`, block length `36` and 16-byte
addresses (52 bytes total). -/
theorem C8_proxy_v2_encoding :
    (∀ (sip dip : List Nat) (sp dp : Nat), sip.length = 4 → dip.length = 4 →
      WriteProxyHeaderV2 (.tcp sip sp) (.tcp dip dp)
          = .ok (sigV2 ++ [0x21, 0x11, 0, 12] ++ sip ++ dip ++ be16 sp ++ be16 dp)
        ∧ (sigV2 ++ [0x21, 0x11, 0, 12] ++ sip ++ dip
            ++ be16 sp ++ be16 dp).length = 28)
    ∧ (∀ (sip dip : List Nat) (sp dp : Nat), sip.length = 16 → dip.length = 16 →
        ipTo4 sip = none → ipTo4 dip = none →
        WriteProxyHeaderV2 (.tcp sip sp) (.tcp dip dp)
            = .ok (sigV2 ++ [0x21, 0x21, 0, 36] ++ sip ++ dip ++ be16 sp ++ be16 dp)
          ∧ (sigV2 ++ [0x21, 0x21, 0, 36] ++ sip ++ dip
              ++ be16 sp ++ be16 dp).length = 52) := by
  constructor
  · intro sip dip sp dp hs hd
    constructor
    · rw [WriteProxyHeaderV2]
      simp only [GoAddr.ipPort, GoAddr.isTCP, ipTo4_of_len4 sip hs,
        ipTo4_of_len4 dip hd, if_pos]
    · simp [sigV2, be16, hs, hd]
  · intro sip dip sp dp hs hd h4s h4d
    constructor
    · rw [WriteProxyHeaderV2]
      simp only [GoAddr.ipPort, GoAddr.isTCP, h4s, h4d,
        ipTo16_of_len16 sip hs, ipTo16_of_len16 dip hd, if_pos, Option.getD_some]
    · simp [sigV2, be16, hs, hd]

/-- Witness for C8: the concrete IPv4/TCP pair used by the repository's own
encoder test produces the expected 28-byte header. -/
theorem C8_proxy_v2_encoding_witness :
    WriteProxyHeaderV2 (.tcp [192, 168, 1, 1] 12345) (.tcp [10, 0, 0, 1] 80)
        = .ok (sigV2 ++ [0x21, 0x11, 0, 12] ++ [192, 168, 1, 1] ++ [10, 0, 0, 1]
          ++ be16 12345 ++ be16 80)
      ∧ (sigV2 ++ [0x21, 0x11, 0, 12] ++ [192, 168, 1, 1] ++ [10, 0, 0, 1]
          ++ be16 12345 ++ be16 80).length = 28 :=
  C8_proxy_v2_encoding.1 [192, 168, 1, 1] [10, 0, 0, 1] 12345 80 rfl rfl

/-- Claim C10: `WriteProxyHeaderV2` classifies an address by whether
`To4` converts it to 4-byte form, so an IPv4-mapped IPv6 address
(`::ffff:a.b.c.d`) is treated as IPv4: pairing a literal IPv4 address with
an IPv4-mapped IPv6 address (in either order) succeeds — no family
mismatch error — and emits the 28-byte IPv4-family encoding using the
mapped address's 4-byte form. -/
theorem C10_v4_mapped_as_ipv4 (a4 b4 : List Nat) (sp dp : Nat)
    (ha : a4.length = 4) (hb : b4.length = 4) :
    WriteProxyHeaderV2 (.tcp a4 sp) (.tcp (v4in6Head ++ b4) dp)
        = .ok (sigV2 ++ [0x21, 0x11, 0, 12] ++ a4 ++ b4 ++ be16 sp ++ be16 dp)
    ∧ WriteProxyHeaderV2 (.tcp (v4in6Head ++ a4) sp) (.tcp b4 dp)
        = .ok (sigV2 ++ [0x21, 0x11, 0, 12] ++ a4 ++ b4 ++ be16 sp ++ be16 dp)
    ∧ (sigV2 ++ [0x21, 0x11, 0, 12] ++ a4 ++ b4 ++ be16 sp ++ be16 dp).length = 28 := by
  refine ⟨?_, ?_, by simp [sigV2, be16, ha, hb]⟩
  · rw [WriteProxyHeaderV2]
    simp only [GoAddr.ipPort, GoAddr.isTCP, ipTo4_of_len4 a4 ha,
      ipTo4_v4in6 b4 hb, if_pos]
  · rw [WriteProxyHeaderV2]
    simp only [GoAddr.ipPort, GoAddr.isTCP, ipTo4_of_len4 b4 hb,
      ipTo4_v4in6 a4 ha, if_pos]

/-- Witness for C10: `192.168.1.1` paired with `::ffff:10.0.0.2` encodes as
IPv4/TCP with the mapped address's 4-byte form. -/
theorem C10_v4_mapped_as_ipv4_witness :
    WriteProxyHeaderV2 (.tcp [192, 168, 1, 1] 7) (.tcp (v4in6Head ++ [10, 0, 0, 2]) 9)
        = .ok (sigV2 ++ [0x21, 0x11, 0, 12] ++ [192, 168, 1, 1] ++ [10, 0, 0, 2]
          ++ be16 7 ++ be16 9) :=
  (C10_v4_mapped_as_ipv4 [192, 168, 1, 1] [10, 0, 0, 2] 7 9 rfl rfl).1

end Nvelox

namespace Nvelox

/-! ## Event handler (src/core/handler.go) -/

/-- A `host:port` address, modelled already split into its two components
(`net.SplitHostPort` becomes projection; both `l.Addr` and the kernel
local address go through the same split in `getListenerConfig`). -/
structure HostPort where
  host : String
  port : String
deriving DecidableEq

/-- `ListenerConfig` of src/core/engine.go. -/
structure ListenerConfig where
  Name : String
  Addr : HostPort
  Protocol : String
  ZeroCopy : Bool
  DefaultBackend : String
  Port : Nat
deriving DecidableEq

/-- An incoming event's connection as the handler observes it: the
transport over which it arrived and the kernel-reported local address. -/
structure GnetConn where
  transport : String
  localAddr : HostPort
deriving DecidableEq

/-- `getListenerConfig`: split the connection's local address, then scan
the listener map (Go map iteration, modelled as list order) and return the
first listener whose configured port string equals the connection's local
port.  The listener's transport is not compared. -/
def getListenerConfig (listenerMap : List ListenerConfig) (c : GnetConn) :
    Option ListenerConfig :=
  listenerMap.find? (fun l => l.Addr.port == c.localAddr.port)

/-- Outcome of the `OnTraffic` dispatch. -/
inductive Dispatch where
  | close
  | toUDP (l : ListenerConfig)
  | toTCP (l : ListenerConfig)
deriving DecidableEq

/-- `OnTraffic`: close the connection when no listener matches; otherwise
route to `handleUDP` or `handleTCP` according to the *matched listener's*
configured protocol. -/
def OnTraffic (listenerMap : List ListenerConfig) (c : GnetConn) : Dispatch :=
  match getListenerConfig listenerMap c with
  | none => .close
  | some l => if l.Protocol == "udp" then .toUDP l else .toTCP l

/-- A successful `find?` returns the first satisfying element. -/
theorem find?_first {α : Type} {p : α → Bool} :
    ∀ {l : List α} {a : α}, l.find? p = some a →
      p a = true ∧ ∃ pre suf, l = pre ++ a :: suf ∧ ∀ b ∈ pre, p b = false := by
  intro l
  induction l with
  | nil => intro a h; simp [List.find?] at h
  | cons x xs ih =>
    intro a h
    by_cases hx : p x = true
    · rw [List.find?_cons_of_pos _ hx] at h
      cases h
      exact ⟨hx, [], xs, rfl, by simp⟩
    · have hx' : p x = false := by simpa using hx
      rw [List.find?_cons_of_neg _ (by simp [hx'])] at h
      obtain ⟨hpa, pre, suf, heq, hpre⟩ := ih h
      refine ⟨hpa, x :: pre, suf, by rw [heq]; rfl, ?_⟩
      intro b hb
      rcases List.mem_cons.mp hb with h0 | h1
      · rw [h0]; exact hx'
      · exact hpre b h1

/-- Claim C1 (amended): the multiplexer selects the first listener in the
listener map whose configured port equals the event's local port,
regardless of transport (the matched listener's protocol — not the
event's transport — then chooses the UDP or TCP handler); when no
listener's port matches, the connection is closed immediately. -/
theorem C1_port_only_dispatch (m : List ListenerConfig) (c : GnetConn) :
    ((∀ l ∈ m, l.Addr.port ≠ c.localAddr.port) → OnTraffic m c = .close)
    ∧ ∀ l, getListenerConfig m c = some l →
        l.Addr.port = c.localAddr.port
        ∧ (∃ pre suf, m = pre ++ l :: suf
            ∧ ∀ l' ∈ pre, l'.Addr.port ≠ c.localAddr.port)
        ∧ OnTraffic m c = (if l.Protocol == "udp" then .toUDP l else .toTCP l) := by
  constructor
  · intro hall
    have hnone : getListenerConfig m c = none := by
      rw [getListenerConfig, List.find?_eq_none]
      intro l hl
      simpa using hall l hl
    rw [OnTraffic, hnone]
  · intro l hl
    obtain ⟨hpl, pre, suf, heq, hpre⟩ := find?_first hl
    refine ⟨by simpa using hpl, ⟨pre, suf, heq, ?_⟩, ?_⟩
    · intro l' hl'
      simpa using hpre l' hl'
    · rw [OnTraffic, hl]

/-- Witness for the amended C1: a connection on a port with no configured
listener is closed. -/
theorem C1_port_only_dispatch_witness :
    OnTraffic [⟨"t", ⟨"", "8080"⟩, "tcp", false, "b1", 8080⟩]
      ⟨"tcp", ⟨"127.0.0.1", "9999"⟩⟩ = .close :=
  (C1_port_only_dispatch [⟨"t", ⟨"", "8080"⟩, "tcp", false, "b1", 8080⟩]
    ⟨"tcp", ⟨"127.0.0.1", "9999"⟩⟩).1 (by decide)

/-- Counterexample to claim C1 as stated: with a UDP listener and a TCP
listener sharing port 9090 in the listener map (the UDP one first in
iteration order), a TCP connection event with local port 9090 is matched
to the UDP listener — whose transport differs from the event's — and
dispatched to the UDP handler, even though a listener with the event's
(transport, port) exists in the map; the connection is not closed. -/
theorem C1_port_only_dispatch_counterexample :
    getListenerConfig
        [⟨"u", ⟨"", "9090"⟩, "udp", false, "b1", 9090⟩,
         ⟨"t", ⟨"", "9090"⟩, "tcp", false, "b1", 9090⟩]
        ⟨"tcp", ⟨"127.0.0.1", "9090"⟩⟩
      = some ⟨"u", ⟨"", "9090"⟩, "udp", false, "b1", 9090⟩
    ∧ (⟨"u", ⟨"", "9090"⟩, "udp", false, "b1", 9090⟩ : ListenerConfig).Protocol ≠ "tcp"
    ∧ (⟨"t", ⟨"", "9090"⟩, "tcp", false, "b1", 9090⟩ : ListenerConfig).Protocol = "tcp"
    ∧ OnTraffic
        [⟨"u", ⟨"", "9090"⟩, "udp", false, "b1", 9090⟩,
         ⟨"t", ⟨"", "9090"⟩, "tcp", false, "b1", 9090⟩]
        ⟨"tcp", ⟨"127.0.0.1", "9090"⟩⟩
      = .toUDP ⟨"u", ⟨"", "9090"⟩, "udp", false, "b1", 9090⟩ := by
  refine ⟨rfl, by decide, rfl, rfl⟩

end Nvelox

namespace Nvelox

/-! ### TCP connection context (src/core/handler.go)

The per-connection events (`handleTCP` data events, the dial completion's
critical section, the backend-reader exit, `OnClose`) all run under
`ctx.mu`, so they are modelled as serialized steps on the context.  Socket
writes are modelled as delivering their bytes (`backendWritten` is the
byte stream the backend socket receives). -/

/-- `ConnContext` of src/core/handler.go plus the backend byte trace.
`backendConn` records whether a backend socket is stored
(`BackendConn != nil`). -/
structure ConnContext where
  backendConn : Bool
  buffer : List Nat
  connected : Bool
  closed : Bool
  backendWritten : List Nat
deriving DecidableEq

/-- The context as constructed by `OnOpen`: empty buffer, no backend. -/
def initCtx : ConnContext :=
  { backendConn := false, buffer := [], connected := false,
    closed := false, backendWritten := [] }

/-- The critical section of `connectBackend` after a successful dial: if
`closed` is already set, close the freshly dialed socket and return with
the context untouched (the second component is `true` iff the dialed
socket was closed instead of being published); otherwise store the socket,
mark `connected`, flush the ingress buffer to the backend and release the
buffer. -/
def connectBackendPublish (ctx : ConnContext) : ConnContext × Bool :=
  if ctx.closed then (ctx, true)
  else
    ({ ctx with
        backendConn := true
        connected := true
        backendWritten := ctx.backendWritten ++ ctx.buffer
        buffer := [] },
      false)

/-- Serialized per-connection events.  `data` is a client-data event
(`handleTCP`); `dialOk` a successful dial completion; `readerExit` the end
of the backend→client copy loop (`connectBackend` safe-closes the client
asynchronously and then sets `closed`); `onClose` the `OnClose` event,
which gnet delivers last. -/
inductive TCPEvent where
  | data (chunk : List Nat)
  | dialOk
  | readerExit
  | onClose
deriving DecidableEq

/-- One serialized step.  `handleTCP` consults only `connected`: when set
it writes the chunk to the backend socket, otherwise it appends the chunk
to the ingress buffer; it does not consult `closed`.  `readerExit` and
`OnClose` set `closed` (`OnClose` also closes any stored backend socket,
not tracked here). -/
def tcpStep (ctx : ConnContext) : TCPEvent → ConnContext
  | .data chunk =>
    if ctx.connected then
      { ctx with backendWritten := ctx.backendWritten ++ chunk }
    else
      { ctx with buffer := ctx.buffer ++ chunk }
  | .dialOk => (connectBackendPublish ctx).1
  | .readerExit => { ctx with closed := true }
  | .onClose => { ctx with closed := true }

/-- Run a sequence of serialized events. -/
def tcpRun (ctx : ConnContext) : List TCPEvent → ConnContext
  | [] => ctx
  | e :: es => tcpRun (tcpStep ctx e) es

theorem tcpRun_append (ctx : ConnContext) (es1 es2 : List TCPEvent) :
    tcpRun ctx (es1 ++ es2) = tcpRun (tcpRun ctx es1) es2 := by
  induction es1 generalizing ctx with
  | nil => rfl
  | cons e es ih => rw [List.cons_append, tcpRun, tcpRun, ih]

theorem tcpRun_data_buffering (cs : List (List Nat)) (ctx : ConnContext)
    (h : ctx.connected = false) :
    tcpRun ctx (cs.map TCPEvent.data) = { ctx with buffer := ctx.buffer ++ cs.flatten } := by
  induction cs generalizing ctx with
  | nil => simp [tcpRun]
  | cons c cs ih =>
    rw [List.map_cons, tcpRun, tcpStep, if_neg (by simp [h])]
    rw [ih _ (by simp [h])]
    simp

theorem tcpRun_data_connected (cs : List (List Nat)) (ctx : ConnContext)
    (h : ctx.connected = true) :
    tcpRun ctx (cs.map TCPEvent.data)
      = { ctx with backendWritten := ctx.backendWritten ++ cs.flatten } := by
  induction cs generalizing ctx with
  | nil => simp [tcpRun]
  | cons c cs ih =>
    rw [List.map_cons, tcpRun, tcpStep, if_pos (by simp [h])]
    rw [ih _ (by simp [h])]
    simp

/-- Claim C2: for a TCP connection whose dial completes, the byte stream
written to the backend equals the concatenation, in arrival order, of all
client chunks — those that arrived while the dial was in progress (the
buffered prefix, flushed by the dial completion) followed by those that
arrived afterwards — and the ingress buffer is empty afterwards. -/
theorem C2_client_to_backend_stream (cs1 cs2 : List (List Nat)) :
    (tcpRun initCtx
        (cs1.map TCPEvent.data ++ TCPEvent.dialOk :: cs2.map TCPEvent.data)).backendWritten
      = cs1.flatten ++ cs2.flatten
    ∧ (tcpRun initCtx
        (cs1.map TCPEvent.data ++ TCPEvent.dialOk :: cs2.map TCPEvent.data)).buffer
      = [] := by
  rw [tcpRun_append, tcpRun_data_buffering cs1 initCtx rfl]
  rw [tcpRun]
  have hstep : tcpStep { initCtx with buffer := initCtx.buffer ++ cs1.flatten } TCPEvent.dialOk
      = { backendConn := true, buffer := [], connected := true,
          closed := false, backendWritten := cs1.flatten } := by
    simp [tcpStep, connectBackendPublish, initCtx]
  rw [hstep, tcpRun_data_connected cs2 _ rfl]
  exact ⟨rfl, rfl⟩

/-- Counterexample to claim C4 as stated: after a successful dial the
backend-reader exit sets `closed` while the client connection is still
open; a subsequent client-data event still writes to the backend socket
(because `handleTCP` tests only `connected`), so a backend write is issued
on behalf of a context whose `closed` flag is true. -/
theorem C4_closed_context_counterexample :
    (tcpRun initCtx [TCPEvent.dialOk, TCPEvent.readerExit]).closed = true
    ∧ (tcpRun initCtx
          [TCPEvent.dialOk, TCPEvent.readerExit, TCPEvent.data [7]]).backendWritten
        ≠ (tcpRun initCtx [TCPEvent.dialOk, TCPEvent.readerExit]).backendWritten := by
  decide

/-- Claim C4 (amended): once `closed` is true, a backend dial that
completes closes the freshly dialed socket and never stores it — the
context (all fields) is left unchanged; and a client-data event arriving
while `connected` is false issues no backend write (the chunk is
buffered).  The blanket "no further backend writes once `closed`" of the
original claim holds only on those paths: a client-data event with
`connected` true writes to the backend regardless of `closed` (see the
counterexample). -/
theorem C4_closed_context (ctx : ConnContext) (h : ctx.closed = true) :
    connectBackendPublish ctx = (ctx, true)
    ∧ ∀ chunk, ctx.connected = false →
        (tcpStep ctx (.data chunk)).backendWritten = ctx.backendWritten := by
  refine ⟨by simp [connectBackendPublish, h], ?_⟩
  intro chunk hc
  simp [tcpStep, hc]

/-- Witness for the amended C4: a dial completing on an already-closed
context leaves the context unchanged and drops the dialed socket. -/
theorem C4_closed_context_witness :
    connectBackendPublish ⟨false, [1], false, true, []⟩
      = (⟨false, [1], false, true, []⟩, true) :=
  (C4_closed_context ⟨false, [1], false, true, []⟩ rfl).1

end Nvelox

namespace Nvelox

/-! ### Cross-task writes and the context-identity guard

`connectBackend`'s reader loop and `safeClose` act on the client
connection only through `AsyncWrite` callbacks that first compare the
captured `ConnContext` pointer with `c.Context()` and do nothing when they
differ.  Pointer identity of contexts is modelled by increasing ids: every
`OnOpen` allocates a fresh `ConnContext` (`&ConnContext{...}`) and
attaches it, so a connection slot never re-attaches an old context. -/

/-- State of one event-loop connection slot (a file-descriptor that may be
closed and re-used).  `cur` is the id of the currently attached context;
`closedIds` are the contexts whose connection has been observed closed;
`written` records every client write actually performed, tagged with the
context under which it ran. -/
structure ConnSlot where
  nextId : Nat
  cur : Option Nat
  closedIds : List Nat
  written : List (Nat × List Nat)
deriving DecidableEq

/-- Slot events: `openEv` is `OnOpen` (attach a fresh context);
`writeCb captured d` is the `AsyncWrite` callback of the backend reader
(`if c.Context() != ctx { return nil }` then `c.Write(data)`);
`closeCb captured` is the `safeClose` callback (same guard, then
`c.Close()`); `onCloseEv` is the event loop closing the connection. -/
inductive SlotEvent where
  | openEv
  | writeCb (captured : Nat) (data : List Nat)
  | closeCb (captured : Nat)
  | onCloseEv
deriving DecidableEq

/-- One slot step.  The two callbacks perform their action only when the
captured context is the currently attached one. -/
def slotStep (s : ConnSlot) : SlotEvent → ConnSlot
  | .openEv => { s with cur := some s.nextId, nextId := s.nextId + 1 }
  | .writeCb k d =>
    if s.cur = some k then { s with written := s.written ++ [(k, d)] } else s
  | .closeCb k =>
    if s.cur = some k then { s with cur := none, closedIds := k :: s.closedIds }
    else s
  | .onCloseEv =>
    match s.cur with
    | some k => { s with cur := none, closedIds := k :: s.closedIds }
    | none => s

/-- The slot before any connection was accepted. -/
def initSlot : ConnSlot := { nextId := 0, cur := none, closedIds := [], written := [] }

/-- Run a sequence of slot events. -/
def slotRun (s : ConnSlot) : List SlotEvent → ConnSlot
  | [] => s
  | e :: es => slotRun (slotStep s e) es

/-- Slot invariant: attached and closed context ids were allocated, and
the attached context has not been observed closed. -/
def SlotInv (s : ConnSlot) : Prop :=
  (∀ k ∈ s.closedIds, k < s.nextId)
  ∧ ∀ k, s.cur = some k → k < s.nextId ∧ k ∉ s.closedIds

theorem slotStep_inv (s : ConnSlot) (e : SlotEvent) (h : SlotInv s) :
    SlotInv (slotStep s e) := by
  obtain ⟨hclosed, hcur⟩ := h
  cases e with
  | openEv =>
    refine ⟨fun k hk => Nat.lt_succ_of_lt (hclosed k hk), ?_⟩
    intro k hk
    simp only [slotStep] at hk
    cases hk
    exact ⟨Nat.lt_succ_self _, fun hmem => Nat.lt_irrefl _ (hclosed _ hmem)⟩
  | writeCb k d =>
    by_cases hc : s.cur = some k
    · simp only [slotStep, if_pos hc]
      exact ⟨hclosed, hcur⟩
    · simp only [slotStep, if_neg hc]
      exact ⟨hclosed, hcur⟩
  | closeCb k =>
    by_cases hc : s.cur = some k
    · simp only [slotStep, if_pos hc]
      refine ⟨?_, ?_⟩
      · intro j hj
        rcases List.mem_cons.mp hj with h0 | h1
        · rw [h0]; exact (hcur k hc).1
        · exact hclosed j h1
      · intro j hj
        simp at hj
    · simp only [slotStep, if_neg hc]
      exact ⟨hclosed, hcur⟩
  | onCloseEv =>
    cases hc : s.cur with
    | none =>
      simp only [slotStep, hc]
      exact ⟨hclosed, hcur⟩
    | some k =>
      simp only [slotStep, hc]
      refine ⟨?_, ?_⟩
      · intro j hj
        rcases List.mem_cons.mp hj with h0 | h1
        · rw [h0]; exact (hcur k hc).1
        · exact hclosed j h1
      · intro j hj
        simp at hj

theorem slotRun_inv (s : ConnSlot) (es : List SlotEvent) (h : SlotInv s) :
    SlotInv (slotRun s es) := by
  induction es generalizing s with
  | nil => exact h
  | cons e es ih => exact ih _ (slotStep_inv s e h)

theorem initSlot_inv : SlotInv initSlot := by
  refine ⟨?_, ?_⟩
  · intro k hk
    simp [initSlot] at hk
  · intro k hk
    simp [initSlot] at hk

/-- Claim C3: in any reachable slot state, once a context has been
observed closed, a cross-task client write captured under it and a
cross-task close captured under it both perform nothing (the state is
unchanged): the callbacks compare the captured context with the currently
attached one and are dropped when the two differ, and a closed context is
never the attached one again. -/
theorem C3_no_stale_writes (es : List SlotEvent) (k : Nat) (d : List Nat)
    (hclosed : k ∈ (slotRun initSlot es).closedIds) :
    slotStep (slotRun initSlot es) (.writeCb k d) = slotRun initSlot es
    ∧ slotStep (slotRun initSlot es) (.closeCb k) = slotRun initSlot es := by
  have hinv := slotRun_inv initSlot es initSlot_inv
  have hne : (slotRun initSlot es).cur ≠ some k :=
    fun hcur => (hinv.2 k hcur).2 hclosed
  constructor
  · simp only [slotStep, if_neg hne]
  · simp only [slotStep, if_neg hne]

/-- Witness for C3: after the slot's connection is opened and closed, a
backend-reader write captured under context 0 is dropped. -/
theorem C3_no_stale_writes_witness :
    slotStep (slotRun initSlot [SlotEvent.openEv, SlotEvent.onCloseEv])
        (.writeCb 0 [1])
      = slotRun initSlot [SlotEvent.openEv, SlotEvent.onCloseEv]
    ∧ slotStep (slotRun initSlot [SlotEvent.openEv, SlotEvent.onCloseEv])
        (.closeCb 0)
      = slotRun initSlot [SlotEvent.openEv, SlotEvent.onCloseEv] :=
  C3_no_stale_writes [SlotEvent.openEv, SlotEvent.onCloseEv] 0 [1] (by decide)

end Nvelox

namespace Nvelox

/-! ### UDP session table (handleUDP in src/core/handler.go)

The `sync.Map` keyed by the client address string is modelled as an
association list; Load / Store / Delete become `lookupS`, cons and
`eraseS`.  A datagram event carries the environment outcomes that
`handleUDP` observes after the session-miss path: the balancer's
`Next` result (`none` models its error) and whether resolve+dial
succeeded.  `picks` counts the balancer consultations; `sent` records the
datagrams written to backend sockets as (client, backend, payload). -/

/-- `sync.Map.Load` on the association list. -/
def lookupS (r : String) : List (String × String) → Option String
  | [] => none
  | (k, v) :: rest => if k = r then some v else lookupS r rest

/-- `sync.Map.Delete` (performed by the return-path reader on exit). -/
def eraseS (r : String) : List (String × String) → List (String × String)
  | [] => []
  | (k, v) :: rest => if k = r then rest else (k, v) :: eraseS r rest

/-- UDP listener state: the session table, the number of balancer
consultations, and the backend-bound datagram trace. -/
structure UDPState where
  sessions : List (String × String)
  picks : Nat
  sent : List (String × String × List Nat)
deriving DecidableEq

/-- Events on a UDP listener: a datagram from `raddr` (with the
environment's balancer / dial outcomes) or the expiry of `raddr`'s session
(return-path timeout or read error). -/
inductive UDPEvent where
  | dgram (raddr : String) (payload : List Nat)
      (nextResult : Option String) (dialOk : Bool)
  | expire (raddr : String)
deriving DecidableEq

/-- One `handleUDP` invocation (or a session expiry).  On a session hit
the datagram goes to the stored backend socket and the balancer is not
consulted.  On a miss the balancer is consulted; on balancer error or
dial failure the datagram is dropped and no session is created; otherwise
the session is stored and the datagram forwarded to the new socket. -/
def udpStep (s : UDPState) : UDPEvent → UDPState
  | .dgram raddr payload nextResult dialOk =>
    match lookupS raddr s.sessions with
    | some be => { s with sent := s.sent ++ [(raddr, be, payload)] }
    | none =>
      match nextResult with
      | none => { s with picks := s.picks + 1 }
      | some target =>
        if dialOk then
          { s with
              picks := s.picks + 1
              sessions := (raddr, target) :: s.sessions
              sent := s.sent ++ [(raddr, target, payload)] }
        else { s with picks := s.picks + 1 }
  | .expire raddr => { s with sessions := eraseS raddr s.sessions }

/-- The empty session table. -/
def initUDP : UDPState := { sessions := [], picks := 0, sent := [] }

/-- Run a sequence of UDP events. -/
def udpRun (s : UDPState) : List UDPEvent → UDPState
  | [] => s
  | e :: es => udpRun (udpStep s e) es

/-- At most one session per client address. -/
def keysNodup (l : List (String × String)) : Prop := (l.map Prod.fst).Nodup

theorem lookupS_none_iff (r : String) (l : List (String × String)) :
    lookupS r l = none ↔ ∀ p ∈ l, p.1 ≠ r := by
  induction l with
  | nil => simp [lookupS]
  | cons kv rest ih =>
    cases kv with
    | mk k v =>
      by_cases hk : k = r
      · simp [lookupS, hk]
      · rw [lookupS, if_neg hk, ih]
        constructor
        · intro h p hp
          rcases List.mem_cons.mp hp with h0 | h1
          · rw [h0]; exact hk
          · exact h p h1
        · intro h p hp
          exact h p (List.mem_cons_of_mem _ hp)

theorem eraseS_keys_sublist (r : String) (l : List (String × String)) :
    ((eraseS r l).map Prod.fst).Sublist (l.map Prod.fst) := by
  induction l with
  | nil => simp [eraseS]
  | cons kv rest ih =>
    cases kv with
    | mk k v =>
      by_cases hk : k = r
      · rw [eraseS, if_pos hk, List.map_cons]
        exact List.sublist_cons_of_sublist _ (List.Sublist.refl _)
      · rw [eraseS, if_neg hk, List.map_cons, List.map_cons]
        exact List.Sublist.cons₂ _ ih

theorem lookupS_eraseS_ne (r r' : String) (hne : r' ≠ r)
    (l : List (String × String)) : lookupS r (eraseS r' l) = lookupS r l := by
  induction l with
  | nil => rfl
  | cons kv rest ih =>
    cases kv with
    | mk k v =>
      by_cases hk : k = r'
      · rw [eraseS, if_pos hk, lookupS, if_neg (by rw [hk]; exact hne)]
      · rw [eraseS, if_neg hk, lookupS, lookupS, ih]

theorem lookupS_eraseS_self (r : String) (l : List (String × String))
    (hnd : keysNodup l) : lookupS r (eraseS r l) = none := by
  induction l with
  | nil => rfl
  | cons kv rest ih =>
    cases kv with
    | mk k v =>
      rw [keysNodup, List.map_cons, List.nodup_cons] at hnd
      by_cases hk : k = r
      · rw [eraseS, if_pos hk, lookupS_none_iff]
        intro p hp hpr
        apply hnd.1
        rw [hk, ← hpr]
        exact List.mem_map.mpr ⟨p, hp, rfl⟩
      · rw [eraseS, if_neg hk, lookupS, if_neg hk]
        exact ih hnd.2

theorem udpStep_keysNodup (s : UDPState) (e : UDPEvent)
    (h : keysNodup s.sessions) : keysNodup (udpStep s e).sessions := by
  cases e with
  | dgram raddr payload nextResult dialOk =>
    cases hl : lookupS raddr s.sessions with
    | some be => simpa only [udpStep, hl] using h
    | none =>
      cases nextResult with
      | none => simpa only [udpStep, hl] using h
      | some target =>
        by_cases hd : dialOk = true
        · simp only [udpStep, hl, hd, if_pos]
          rw [keysNodup, List.map_cons, List.nodup_cons]
          refine ⟨?_, h⟩
          intro hmem
          obtain ⟨p, hp, hpr⟩ := List.mem_map.mp hmem
          exact ((lookupS_none_iff raddr s.sessions).mp hl p hp) hpr
        · have hd' : dialOk = false := by simpa using hd
          simpa only [udpStep, hl, hd', if_neg Bool.false_ne_true] using h
  | expire raddr =>
    simp only [udpStep]
    exact List.Nodup.sublist (eraseS_keys_sublist raddr s.sessions) h

/-- Claim C9: (a) at most one UDP session exists per client address at any
time; (b) a datagram consults the balancer exactly when its sender has no
session; (c) a datagram from a client with a session is forwarded to the
session's backend and changes neither the session table nor the balancer
consultation count; (d) while a session exists its backend never changes
(any step either preserves the stored backend or removes the session). -/
theorem C9_udp_session_stickiness (es : List UDPEvent) :
    keysNodup (udpRun initUDP es).sessions
    ∧ (∀ (s : UDPState) (r : String) (p : List Nat) (t : Option String) (d : Bool),
        (udpStep s (.dgram r p t d)).picks
          = s.picks + (if lookupS r s.sessions = none then 1 else 0))
    ∧ (∀ (s : UDPState) (r : String) (p : List Nat) (t : Option String) (d : Bool)
        (be : String), lookupS r s.sessions = some be →
          udpStep s (.dgram r p t d) = { s with sent := s.sent ++ [(r, be, p)] })
    ∧ (∀ (s : UDPState) (e : UDPEvent) (r be : String), keysNodup s.sessions →
        lookupS r s.sessions = some be →
          lookupS r (udpStep s e).sessions = some be
          ∨ lookupS r (udpStep s e).sessions = none) := by
  refine ⟨?_, ?_, ?_, ?_⟩
  · have : ∀ (es : List UDPEvent) (s : UDPState), keysNodup s.sessions →
        keysNodup (udpRun s es).sessions := by
      intro es
      induction es with
      | nil => exact fun s h => h
      | cons e es ih => exact fun s h => ih _ (udpStep_keysNodup s e h)
    exact this es initUDP (by simp [initUDP, keysNodup])
  · intro s r p t d
    cases hl : lookupS r s.sessions with
    | some be => simp [udpStep, hl]
    | none =>
      cases t with
      | none => simp [udpStep, hl]
      | some target =>
        by_cases hd : d = true
        · simp [udpStep, hl, hd]
        · have hd' : d = false := by simpa using hd
          simp [udpStep, hl, hd']
  · intro s r p t d be hl
    simp only [udpStep, hl]
  · intro s e r be hnd hl
    cases e with
    | dgram r' p t d =>
      cases hl' : lookupS r' s.sessions with
      | some be' =>
        left
        simpa only [udpStep, hl'] using hl
      | none =>
        cases t with
        | none =>
          left
          simpa only [udpStep, hl'] using hl
        | some target =>
          by_cases hd : d = true
          · have hrr : r' ≠ r := by
              intro hcon
              rw [hcon, hl] at hl'
              cases hl'
            left
            simp only [udpStep, hl', hd, if_pos]
            rw [lookupS, if_neg hrr]
            exact hl
          · have hd' : d = false := by simpa using hd
            left
            simpa only [udpStep, hl', hd', if_neg Bool.false_ne_true] using hl
    | expire r' =>
      by_cases hrr : r' = r
      · right
        simp only [udpStep]
        rw [hrr, lookupS_eraseS_self r s.sessions hnd]
      · left
        simp only [udpStep]
        rw [lookupS_eraseS_ne r r' hrr s.sessions]
        exact hl

/-- Witness for C9: a datagram from a client with a live session is
forwarded to that session's backend without consulting the balancer or
touching the table. -/
theorem C9_udp_session_stickiness_witness :
    udpStep ⟨[("c1", "b1")], 5, []⟩ (.dgram "c1" [1, 2] none false)
      = ⟨[("c1", "b1")], 5, [("c1", "b1", [1, 2])]⟩ :=
  (C9_udp_session_stickiness []).2.2.1 ⟨[("c1", "b1")], 5, []⟩ "c1" [1, 2]
    none false "b1" (by decide)

end Nvelox
